import Mathlib

/-!
Verification of the radial clustering script (`radial_clustering.py`).

The script partitions participants (2D points produced by an external
projection step) into balanced groups by angular position around the
centroid, and computes boundary angles between adjacent groups for
rendering.

Shallow embedding conventions:
  - Coordinates and angles are rationals (`ℚ`); the transcendental
    `np.degrees(np.arctan2 …)` is modelled as an arbitrary function
    parameter `f : ℚ → ℚ → ℚ` (applied to `(dy, dx)`), so every theorem
    proved below holds for the actual arctangent in particular.
  - `pandas.sort_values` (default `kind` is numpy quicksort) is modelled
    as a parameter `sortFn : List ℚ → List ℕ` returning the argsort
    permutation; theorems that need it assume only that it returns a
    permutation of the row indices, which the library sort guarantees.
    Its tie order is NOT assumed (quicksort is not stable).
  - Uncaught Python exceptions are modelled as `Except.error` values:
    `zeroDivisionError` for `//` by zero, `indexError` for list index out
    of range, `valueError` for the pandas column-length mismatch.
  - A run that exhausts all 360 offsets returns `(None, None)`, modelled
    as `Except.ok none`.
-/

namespace RadialClustering

/-- Uncaught Python exceptions that the script can raise. -/
inductive PyErr where
  | zeroDivisionError
  | indexError
  | valueError
  deriving DecidableEq, Repr

/-- A participant point in the PCA plane (columns `PC1`, `PC2`). -/
structure Pt where
  x : ℚ
  y : ℚ
  deriving DecidableEq, Repr

instance exceptDecEq {ε α : Type} [DecidableEq ε] [DecidableEq α] :
    DecidableEq (Except ε α) := fun a b =>
  match a, b with
  | .error e1, .error e2 =>
    if h : e1 = e2 then .isTrue (by rw [h]) else .isFalse (fun hc => h (by injection hc))
  | .error _, .ok _ => .isFalse (fun hc => Except.noConfusion hc)
  | .ok _, .error _ => .isFalse (fun hc => Except.noConfusion hc)
  | .ok a1, .ok a2 =>
    if h : a1 = a2 then .isTrue (by rw [h]) else .isFalse (fun hc => h (by injection hc))

/-- Python float modulo with the sign convention of the divisor:
`a % b = a - b * floor (a / b)` (used as `… % 360`). -/
def pymod (a b : ℚ) : ℚ := a - b * (⌊a / b⌋ : ℤ)

/-- Python `range(K)` for an `int` argument: empty when `K ≤ 0`. -/
def pyRange (K : ℤ) : List ℕ := List.range K.toNat

/-- Python list slice `l[:K]`, including the negative-index convention
`l[:-m] = l[: len l - m]`. -/
def pySliceTo (K : ℤ) (l : List Char) : List Char :=
  if 0 ≤ K then l.take K.toNat else l.take (l.length - (-K).toNat)

/-- The hardcoded label alphabet `list('ABCDEF')` of the script. -/
def clusterLabelsAll : List Char := ['A', 'B', 'C', 'D', 'E', 'F']

/-- The assignment-building loop (`for i in range(num_clusters): …`):
label `i` contributes `participants_per_cluster + 1` copies when
`i < clusters_with_extra` and `participants_per_cluster` copies
otherwise; indexing `cluster_labels[i]` out of range raises `IndexError`.
A negative replication count yields `[]`, as in Python. -/
def buildAssignments (labels : List Char) (ppc extra : ℤ) : List ℕ → Except PyErr (List Char)
  | [] => .ok []
  | i :: rest =>
    if h : i < labels.length then
      match buildAssignments labels ppc extra rest with
      | .error e => .error e
      | .ok tail =>
        .ok (List.replicate (if (i : ℤ) < extra then (ppc + 1).toNat else ppc.toNat)
              (labels.get ⟨i, h⟩) ++ tail)
    else .error .indexError

/-- Position of the first occurrence of `j` in a list of indices
(`0` past the end), modelling row lookup in the argsort permutation. -/
def posOf (j : ℕ) : List ℕ → ℕ
  | [] => 0
  | a :: l => if a = j then 0 else posOf j (l) + 1

/-- Mapping the per-sorted-position labels back to the rows of the
original frame (`temp_df.index.map(cluster_mapping)`): row `j` receives
the label at `j`'s position in the sort permutation. -/
def mapBack (perm : List ℕ) (asg : List Char) (n : ℕ) : List Char :=
  (List.range n).map (fun j => asg.getD (posOf j perm) '?')

/-- Helper for first-appearance deduplication: the `seen` accumulator
holds the values already emitted. -/
def uniqueFirstAux (seen : List Char) : List Char → List Char
  | [] => []
  | a :: l => if a ∈ seen then uniqueFirstAux seen l else a :: uniqueFirstAux (a :: seen) l

/-- First-appearance deduplication, as `pandas.Series.unique` (used by
`groupby` keys; the order is irrelevant to the min/max balance test). -/
def uniqueFirst (l : List Char) : List Char := uniqueFirstAux [] l

/-- Sizes of the groups that actually occur in the cluster column
(`temp_df.groupby('Cluster').size()`): labels that are assigned to no
row do not appear. -/
def sizesOf (clusters : List Char) : List ℕ :=
  (uniqueFirst clusters).map (fun c => clusters.count c)

/-- Minimum of a series, `none` when empty (pandas yields `NaN`). -/
def seriesMin : List ℕ → Option ℕ
  | [] => none
  | a :: l => some (l.foldl min a)

/-- Maximum of a series, `none` when empty (pandas yields `NaN`). -/
def seriesMax : List ℕ → Option ℕ
  | [] => none
  | a :: l => some (l.foldl max a)

/-- The balance test
`cluster_sizes.min() >= participants_per_cluster and
 cluster_sizes.max() <= participants_per_cluster + 1`; a comparison
against the `NaN` of an empty size table is false. -/
def balanceCheck (sizes : List ℕ) (ppc : ℤ) : Bool :=
  match seriesMin sizes, seriesMax sizes with
  | some mn, some mx => decide (ppc ≤ (mn : ℤ)) && decide ((mx : ℤ) ≤ ppc + 1)
  | _, _ => false

/-- The per-row angle column of one trial: the centroid is the mean of
the coordinates (lines 120-122 of the script), and each row's angle is
`(-f(dy, dx) + offset + 360) % 360` where `f` stands for
`np.degrees(np.arctan2 ..)`. -/
def anglesAt (pts : List Pt) (f : ℚ → ℚ → ℚ) (off : ℕ) : List ℚ :=
  let cx := (pts.map Pt.x).sum / (pts.length : ℚ)
  let cy := (pts.map Pt.y).sum / (pts.length : ℚ)
  pts.map (fun p => pymod (-(f (p.y - cy) (p.x - cx)) + (off : ℚ) + 360) 360)

/-- One iteration of the offset loop of `find_optimal_clustering`
(lines 119-156 of the script): compute the centroid and the angle
column, argsort, build the run labels, truncate, assign back to the
original row order, and apply the balance test.  Returns `some clusters`
when the offset is accepted. -/
def trialRun (pts : List Pt) (K : ℤ) (f : ℚ → ℚ → ℚ) (sortFn : List ℚ → List ℕ)
    (labels : List Char) (ppc extra : ℤ) (off : ℕ) : Except PyErr (Option (List Char)) :=
  let n := pts.length
  let perm := sortFn (anglesAt pts f off)
  match buildAssignments labels ppc extra (pyRange K) with
  | .error e => .error e
  | .ok asg0 =>
    let asg := asg0.take n
    if asg.length ≠ n then .error .valueError
    else
      let clusters := mapBack perm asg n
      if balanceCheck (sizesOf clusters) ppc then .ok (some clusters) else .ok none

/-- The offset scan: run the trial at each offset in order and return the
first accepted one together with its offset; an uncaught exception
aborts the scan. -/
def searchOffsets (trial : ℕ → Except PyErr (Option (List Char))) :
    List ℕ → Except PyErr (Option (List Char × ℕ))
  | [] => .ok none
  | off :: rest =>
    match trial off with
    | .error e => .error e
    | .ok (some cl) => .ok (some (cl, off))
    | .ok none => searchOffsets trial rest

/-- `find_optimal_clustering(pca_df, num_clusters)`:
`participants_per_cluster = N // K` raises `ZeroDivisionError` when
`K = 0`; otherwise the 360 integer offsets `0, 1, …, 359` are scanned.
`Except.ok none` models the `(None, None)` failure return. -/
def find_optimal_clustering (pts : List Pt) (K : ℤ) (f : ℚ → ℚ → ℚ)
    (sortFn : List ℚ → List ℕ) : Except PyErr (Option (List Char × ℕ)) :=
  if K = 0 then .error .zeroDivisionError
  else
    let ppc := Int.fdiv (pts.length : ℤ) K
    let extra := Int.fmod (pts.length : ℤ) K
    let labels := pySliceTo K clusterLabelsAll
    searchOffsets (trialRun pts K f sortFn labels ppc extra) (List.range 360)

/-- The distinct cluster labels present in the plotted frame, in order of
first appearance (`df_with_clusters['Cluster'].unique()`). -/
def clustersOf (rows : List (Char × ℚ)) : List Char :=
  uniqueFirst (rows.map Prod.fst)

/-- The `Angle` values of the members of cluster `c`. -/
def anglesOfLabel (rows : List (Char × ℚ)) (c : Char) : List ℚ :=
  (rows.filter (fun r => r.fst == c)).map Prod.snd

/-- Minimum of a rational series, `none` when empty. -/
def seriesMinQ : List ℚ → Option ℚ
  | [] => none
  | a :: l => some (l.foldl min a)

/-- Maximum of a rational series, `none` when empty. -/
def seriesMaxQ : List ℚ → Option ℚ
  | [] => none
  | a :: l => some (l.foldl max a)

/-- `df[df['Cluster'] == c]['Angle'].min()`; the default is never used on
labels that occur in the frame. -/
def minAngle (rows : List (Char × ℚ)) (c : Char) : ℚ :=
  (seriesMinQ (anglesOfLabel rows c)).getD 0

/-- `df[df['Cluster'] == c]['Angle'].max()`; the default is never used on
labels that occur in the frame. -/
def maxAngle (rows : List (Char × ℚ)) (c : Char) : ℚ :=
  (seriesMaxQ (anglesOfLabel rows c)).getD 0

/-- `sorted(df['Cluster'].unique(), key = min angle of the cluster)`;
Python `sorted` is a stable comparison sort, matching
`List.insertionSort`. -/
def orderedLabels (rows : List (Char × ℚ)) : List Char :=
  List.insertionSort (fun a b => minAngle rows a ≤ minAngle rows b) (clustersOf rows)

/-- The midpoint boundary between the `i`-th cluster (in min-angle order)
and its cyclic successor: take the current maximum and the next minimum,
add `360` to the latter at the wraparound seam, halve, reduce `% 360`. -/
def midAngleAt (rows : List (Char × ℚ)) (ls : List Char) (i : ℕ) : ℚ :=
  let current_cluster := ls.getD i '?'
  let next_cluster := ls.getD ((i + 1) % ls.length) '?'
  let max_angle_current := maxAngle rows current_cluster
  let min_angle_next0 := minAngle rows next_cluster
  let min_angle_next :=
    if min_angle_next0 < max_angle_current then min_angle_next0 + 360 else min_angle_next0
  pymod ((max_angle_current + min_angle_next) / 2) 360

/-- The per-pair midpoints, one for each label in min-angle order. -/
def midAngles (rows : List (Char × ℚ)) : List ℚ :=
  (List.range (orderedLabels rows).length).map (midAngleAt rows (orderedLabels rows))

/-- The boundary list the script draws: each midpoint is transformed by
the rendering rotation `b ↦ -b + 30` and the list is then sorted
ascending (`boundary_angles = sorted(boundary_angles)`). -/
def boundary_angles (rows : List (Char × ℚ)) : List ℚ :=
  List.insertionSort (fun a b => a ≤ b) ((midAngles rows).map (fun b => -b + 30))

/-- A constant stand-in for the angle function, used to evaluate the
model on concrete inputs (all angles tie). -/
def constAngle : ℚ → ℚ → ℚ := fun _ _ => 0

/-- The identity argsort permutation: a valid (sorted, since all angles
produced by `constAngle` tie) instantiation of the sort parameter. -/
def idSort : List ℚ → List ℕ := fun as => List.range as.length

/-- A concrete list of `n` distinct collinear points. -/
def mkPts (n : ℕ) : List Pt :=
  (List.range n).map (fun i => ⟨(i : ℚ), 0⟩)

/-! Basic lemmas about the embedding's building blocks. -/

lemma pymod_nonneg_lt (a : ℚ) : 0 ≤ pymod a 360 ∧ pymod a 360 < 360 := by
  have h360 : (0 : ℚ) < 360 := by norm_num
  have h1 : ((⌊a / 360⌋ : ℤ) : ℚ) * 360 ≤ a :=
    (le_div_iff₀ h360).mp (Int.floor_le _)
  have h2 : a < (((⌊a / 360⌋ : ℤ) : ℚ) + 1) * 360 :=
    (div_lt_iff₀ h360).mp (Int.lt_floor_add_one _)
  constructor
  · rw [pymod]; nlinarith
  · rw [pymod]; nlinarith

lemma mem_of_mem_uniqueFirstAux {a : Char} :
    ∀ {l seen : List Char}, a ∈ uniqueFirstAux seen l → a ∈ l := by
  intro l
  induction l with
  | nil =>
    intro seen h
    cases h
  | cons b t ih =>
    intro seen h
    rw [uniqueFirstAux] at h
    by_cases hb : b ∈ seen
    · rw [if_pos hb] at h
      exact List.mem_cons_of_mem _ (ih h)
    · rw [if_neg hb] at h
      rcases List.mem_cons.mp h with h1 | h1
      · exact h1 ▸ List.mem_cons_self _ _
      · exact List.mem_cons_of_mem _ (ih h1)

lemma mem_of_mem_uniqueFirst {a : Char} {l : List Char} (h : a ∈ uniqueFirst l) : a ∈ l :=
  mem_of_mem_uniqueFirstAux h

lemma posOf_lt_length {j : ℕ} : ∀ {l : List ℕ}, j ∈ l → posOf j l < l.length := by
  intro l h
  induction l with
  | nil => cases h
  | cons a l ih =>
    by_cases hc : a = j
    · simp [posOf, hc]
    · have hj : j ∈ l := by
        rcases List.mem_cons.mp h with h1 | h1
        · exact absurd h1.symm hc
        · exact h1
      simp only [posOf, if_neg hc, List.length_cons]
      exact Nat.succ_lt_succ (ih hj)

lemma getD_posOf {j : ℕ} : ∀ {l : List ℕ}, j ∈ l → l.getD (posOf j l) 0 = j := by
  intro l h
  induction l with
  | nil => cases h
  | cons a l ih =>
    by_cases hc : a = j
    · simp [posOf, hc]
    · have hj : j ∈ l := by
        rcases List.mem_cons.mp h with h1 | h1
        · exact absurd h1.symm hc
        · exact h1
      simp only [posOf, if_neg hc, List.getD_cons_succ]
      exact ih hj

lemma map_getD_range {α : Type} (d : α) : ∀ (l : List α),
    (List.range l.length).map (fun i => l.getD i d) = l := by
  intro l
  induction l with
  | nil => simp
  | cons a l ih =>
    rw [List.length_cons, List.range_succ_eq_map]
    simp only [List.map_cons, List.map_map, List.getD_cons_zero]
    have hfun : ((fun i => (a :: l).getD i d) ∘ Nat.succ) = fun i => l.getD i d := by
      funext i
      simp [Function.comp, List.getD_cons_succ]
    rw [hfun, ih]

lemma invPerm_perm {perm : List ℕ} {n : ℕ} (h : perm.Perm (List.range n)) :
    ((List.range n).map (fun j => posOf j perm)).Perm (List.range n) := by
  have hlen : perm.length = n := by simpa using h.length_eq
  have hmem : ∀ j, j ∈ perm ↔ j < n := by
    intro j
    rw [h.mem_iff, List.mem_range]
  have hinj : ∀ x ∈ List.range n, ∀ y ∈ List.range n,
      posOf x perm = posOf y perm → x = y := by
    intro x hx y hy hxy
    have hx1 : x ∈ perm := (hmem x).mpr (List.mem_range.mp hx)
    have hy1 : y ∈ perm := (hmem y).mpr (List.mem_range.mp hy)
    have hgx := getD_posOf hx1
    rw [hxy, getD_posOf hy1] at hgx
    exact hgx.symm
  have hnd : ((List.range n).map (fun j => posOf j perm)).Nodup :=
    List.Nodup.map_on hinj (List.nodup_range n)
  have hsub : ((List.range n).map (fun j => posOf j perm)) ⊆ List.range n := by
    intro i hi
    rcases List.mem_map.mp hi with ⟨j, hj, rfl⟩
    have hjp : j ∈ perm := (hmem j).mpr (List.mem_range.mp hj)
    have hlt := posOf_lt_length hjp
    rw [hlen] at hlt
    exact List.mem_range.mpr hlt
  exact (List.subperm_of_subset hnd hsub).perm_of_length_le (by simp)

lemma mapBack_perm {perm : List ℕ} {asg : List Char}
    (h : perm.Perm (List.range asg.length)) :
    (mapBack perm asg asg.length).Perm asg := by
  have h1 : mapBack perm asg asg.length
      = ((List.range asg.length).map (fun j => posOf j perm)).map
          (fun i => asg.getD i '?') := by
    rw [mapBack, List.map_map]
    rfl
  have h2 := (invPerm_perm h).map (fun i => asg.getD i '?')
  have h3 : ((List.range asg.length).map fun i => asg.getD i '?') = asg :=
    map_getD_range '?' asg
  have h4 : ((List.range asg.length).map fun i => asg.getD i '?').Perm asg := by
    rw [h3]
  rw [h1]
  exact h2.trans h4

lemma sum_range_if (q m : ℕ) : ∀ k,
    ((List.range k).map (fun i => if i < m then q + 1 else q)).sum = k * q + min k m := by
  intro k
  induction k with
  | zero => simp
  | succ k ih =>
    rw [List.range_succ, List.map_append, List.sum_append]
    simp only [List.map_cons, List.map_nil, List.sum_cons, List.sum_nil]
    by_cases hk : k < m
    · rw [if_pos hk, ih]
      have e1 : min k m = k := by omega
      have e2 : min (k + 1) m = k + 1 := by omega
      rw [e1, e2]
      ring
    · rw [if_neg hk, ih]
      have e1 : min k m = m := by omega
      have e2 : min (k + 1) m = m := by omega
      rw [e1, e2]
      ring

lemma countP_range_lt (m : ℕ) : ∀ k,
    (List.range k).countP (fun i => decide (i < m)) = min k m := by
  intro k
  induction k with
  | zero => simp
  | succ k ih =>
    rw [List.range_succ, List.countP_append, ih]
    by_cases hk : k < m
    · have h1 : List.countP (fun i => decide (i < m)) [k] = 1 := by
        simp [List.countP_cons, List.countP_nil, hk]
      rw [h1]
      omega
    · have h1 : List.countP (fun i => decide (i < m)) [k] = 0 := by
        simp [List.countP_cons, List.countP_nil, hk]
      rw [h1]
      omega

lemma getD_take {α : Type} (d : α) :
    ∀ (l : List α) (k i : ℕ), i < k → (l.take k).getD i d = l.getD i d := by
  intro l
  induction l with
  | nil => simp
  | cons a l ih =>
    intro k i hik
    cases k with
    | zero => omega
    | succ k =>
      rw [List.take_succ_cons]
      cases i with
      | zero => simp
      | succ i =>
        simp only [List.getD_cons_succ]
        exact ih k i (by omega)

lemma foldl_min_choice : ∀ (l : List ℕ) (a : ℕ), l.foldl min a = a ∨ l.foldl min a ∈ l := by
  intro l
  induction l with
  | nil => intro a; left; rfl
  | cons b l ih =>
    intro a
    rcases ih (min a b) with h | h
    · rw [List.foldl_cons, h]
      rcases min_choice a b with h1 | h1
      · left; exact h1
      · right; rw [h1]; exact List.mem_cons_self _ _
    · right
      rw [List.foldl_cons]
      exact List.mem_cons_of_mem _ h

lemma foldl_max_choice : ∀ (l : List ℕ) (a : ℕ), l.foldl max a = a ∨ l.foldl max a ∈ l := by
  intro l
  induction l with
  | nil => intro a; left; rfl
  | cons b l ih =>
    intro a
    rcases ih (max a b) with h | h
    · rw [List.foldl_cons, h]
      rcases max_choice a b with h1 | h1
      · left; exact h1
      · right; rw [h1]; exact List.mem_cons_self _ _
    · right
      rw [List.foldl_cons]
      exact List.mem_cons_of_mem _ h

lemma balanceCheck_true {sizes : List ℕ} {ppc : ℤ} (hne : sizes ≠ [])
    (hb : ∀ s ∈ sizes, ppc ≤ (s : ℤ) ∧ (s : ℤ) ≤ ppc + 1) :
    balanceCheck sizes ppc = true := by
  obtain ⟨a, l, rfl⟩ : ∃ a l, sizes = a :: l := by
    cases sizes with
    | nil => exact absurd rfl hne
    | cons a l => exact ⟨a, l, rfl⟩
  have hmn : ppc ≤ ((l.foldl min a : ℕ) : ℤ) := by
    rcases foldl_min_choice l a with h | h
    · rw [h]
      exact (hb a (List.mem_cons_self _ _)).1
    · exact (hb _ (List.mem_cons_of_mem _ h)).1
  have hmx : ((l.foldl max a : ℕ) : ℤ) ≤ ppc + 1 := by
    rcases foldl_max_choice l a with h | h
    · rw [h]
      exact (hb a (List.mem_cons_self _ _)).2
    · exact (hb _ (List.mem_cons_of_mem _ h)).2
  simp [balanceCheck, seriesMin, seriesMax, hmn, hmx]

lemma searchOffsets_all_none {trial : ℕ → Except PyErr (Option (List Char))} :
    ∀ l, (∀ o ∈ l, trial o = .ok none) → searchOffsets trial l = .ok none := by
  intro l h
  induction l with
  | nil => rfl
  | cons a l ih =>
    have ha := h a (List.mem_cons_self a l)
    simp only [searchOffsets, ha]
    exact ih (fun o ho => h o (List.mem_cons_of_mem _ ho))

lemma searchOffsets_range_succ_ok {trial : ℕ → Except PyErr (Option (List Char))}
    {cl : List Char} (n : ℕ) (h : trial 0 = .ok (some cl)) :
    searchOffsets trial (List.range (n + 1)) = .ok (some (cl, 0)) := by
  rw [List.range_succ_eq_map]
  simp [searchOffsets, h]

lemma searchOffsets_range_succ_error {trial : ℕ → Except PyErr (Option (List Char))}
    {e : PyErr} (n : ℕ) (h : trial 0 = .error e) :
    searchOffsets trial (List.range (n + 1)) = .error e := by
  rw [List.range_succ_eq_map]
  simp [searchOffsets, h]

lemma searchOffsets_range'_some {trial : ℕ → Except PyErr (Option (List Char))} :
    ∀ (b s : ℕ) {cl : List Char} {off : ℕ},
      searchOffsets trial (List.range' s b) = .ok (some (cl, off)) →
      s ≤ off ∧ off < s + b ∧ trial off = .ok (some cl) ∧
        ∀ o, s ≤ o → o < off → trial o = .ok none := by
  intro b
  induction b with
  | zero =>
    intro s cl off h
    simp [searchOffsets] at h
  | succ b ih =>
    intro s cl off h
    rw [List.range'_succ] at h
    cases htrial : trial s with
    | error e =>
      simp only [searchOffsets, htrial] at h
      exact absurd h (by simp)
    | ok o =>
      cases o with
      | some cl2 =>
        simp only [searchOffsets, htrial, Except.ok.injEq, Option.some.injEq,
          Prod.mk.injEq] at h
        obtain ⟨rfl, rfl⟩ := h
        refine ⟨Nat.le_refl _, by omega, htrial, ?_⟩
        intro o ho1 ho2
        exact absurd ho2 (by omega)
      | none =>
        simp only [searchOffsets, htrial] at h
        obtain ⟨h1, h2, h3, h4⟩ := ih (s + 1) h
        refine ⟨by omega, by omega, h3, ?_⟩
        intro o ho1 ho2
        rcases Nat.eq_or_lt_of_le ho1 with rfl | hlt
        · exact htrial
        · exact h4 o (by omega) ho2

/-! Characterization of the assignment-building loop. -/

/-- The list value produced by the assignment loop when every index is in
range: the concatenation of the per-label blocks, in label order. -/
def builtList (labels : List Char) (ppc extra : ℤ) : List ℕ → List Char
  | [] => []
  | i :: rest =>
    List.replicate (if (i : ℤ) < extra then (ppc + 1).toNat else ppc.toNat)
      (labels.getD i '?') ++ builtList labels ppc extra rest

lemma getD_eq_get {α : Type} {l : List α} {i : ℕ} (h : i < l.length) (d : α) :
    l.getD i d = l.get ⟨i, h⟩ := by
  rw [List.getD_eq_getElem _ _ h, List.get_eq_getElem]

lemma getD_mem {α : Type} {l : List α} {i : ℕ} (h : i < l.length) (d : α) :
    l.getD i d ∈ l := by
  rw [List.getD_eq_getElem _ _ h]
  exact List.getElem_mem _

lemma uniqueFirst_ne_nil {l : List Char} (h : l ≠ []) : uniqueFirst l ≠ [] := by
  cases l with
  | nil => exact absurd rfl h
  | cons a l =>
    rw [uniqueFirst, uniqueFirstAux, if_neg (List.not_mem_nil a)]
    exact List.cons_ne_nil _ _

lemma buildAssignments_eq_ok (labels : List Char) (ppc extra : ℤ) :
    ∀ l : List ℕ, (∀ i ∈ l, i < labels.length) →
      buildAssignments labels ppc extra l = .ok (builtList labels ppc extra l) := by
  intro l hl
  induction l with
  | nil => rfl
  | cons i rest ih =>
    have hi : i < labels.length := hl i (List.mem_cons_self _ _)
    have hrest := ih (fun j hj => hl j (List.mem_cons_of_mem _ hj))
    rw [buildAssignments, dif_pos hi, hrest]
    rw [builtList, getD_eq_get hi]

lemma builtList_length (labels : List Char) (ppc extra : ℤ) :
    ∀ l : List ℕ, (builtList labels ppc extra l).length =
      (l.map (fun i : ℕ => if (i : ℤ) < extra then (ppc + 1).toNat else ppc.toNat)).sum := by
  intro l
  induction l with
  | nil => rfl
  | cons i rest ih =>
    rw [builtList, List.length_append, List.length_replicate, ih, List.map_cons,
      List.sum_cons]

lemma builtList_mem (labels : List Char) (ppc extra : ℤ) :
    ∀ (l : List ℕ) (c : Char), c ∈ builtList labels ppc extra l →
      ∃ i ∈ l, c = labels.getD i '?' := by
  intro l c h
  induction l with
  | nil => cases h
  | cons i rest ih =>
    rw [builtList] at h
    rcases List.mem_append.mp h with h1 | h1
    · exact ⟨i, List.mem_cons_self _ _, (List.eq_of_mem_replicate h1)⟩
    · obtain ⟨j, hj, hc⟩ := ih h1
      exact ⟨j, List.mem_cons_of_mem _ hj, hc⟩

lemma builtList_count (labels : List Char) (ppc extra : ℤ) (hnd : labels.Nodup) :
    ∀ l : List ℕ, l.Nodup → (∀ i ∈ l, i < labels.length) →
      ∀ j, j < labels.length →
        (builtList labels ppc extra l).count (labels.getD j '?') =
          if j ∈ l then (if (j : ℤ) < extra then (ppc + 1).toNat else ppc.toNat) else 0 := by
  intro l
  induction l with
  | nil =>
    intro _ _ j _
    simp [builtList]
  | cons i rest ih =>
    intro hlnd hl j hj
    have hi : i < labels.length := hl i (List.mem_cons_self _ _)
    have hcount := ih (List.Nodup.of_cons hlnd) (fun x hx => hl x (List.mem_cons_of_mem _ hx)) j hj
    rw [builtList, List.count_append, List.count_replicate, hcount]
    by_cases hji : j = i
    · subst hji
      have hnotin : j ∉ rest := (List.nodup_cons.mp hlnd).1
      rw [if_pos (beq_self_eq_true _), if_neg hnotin, if_pos (List.mem_cons_self _ _)]
      omega
    · have hne : ¬(labels.getD i '?' == labels.getD j '?') = true := by
        intro hbeq
        have heq : labels.getD i '?' = labels.getD j '?' := eq_of_beq hbeq
        rw [getD_eq_get hi, getD_eq_get hj] at heq
        have hfin := (List.Nodup.get_inj_iff hnd).mp heq
        have hij : i = j := congrArg Fin.val hfin
        exact hji hij.symm
      rw [if_neg hne]
      have hmem : (j ∈ i :: rest) ↔ (j ∈ rest) := by
        constructor
        · intro h
          rcases List.mem_cons.mp h with h1 | h1
          · exact absurd h1 hji
          · exact h1
        · exact List.mem_cons_of_mem _
      by_cases hjr : j ∈ rest
      · rw [if_pos hjr, if_pos (hmem.mpr hjr)]
        omega
      · rw [if_neg hjr, if_neg (fun hc => hjr (hmem.mp hc))]

/-! The accepted trial: for `1 ≤ K ≤ 6` and a nonempty point list the
balance test passes at every offset, because the structural split fixes
the size of every nonempty group to `N / K` or `N / K + 1`. -/

lemma anglesAt_length (pts : List Pt) (f : ℚ → ℚ → ℚ) (off : ℕ) :
    (anglesAt pts f off).length = pts.length := by
  simp [anglesAt]

lemma mapBack_length (perm : List ℕ) (asg : List Char) (n : ℕ) :
    (mapBack perm asg n).length = n := by
  simp [mapBack]

lemma trialRun_ok (pts : List Pt) (K : ℤ) (f : ℚ → ℚ → ℚ) (sortFn : List ℚ → List ℕ)
    (hperm : ∀ as : List ℚ, (sortFn as).Perm (List.range as.length))
    (h1 : 1 ≤ K) (h6 : K ≤ 6) (hN : pts ≠ []) (off : ℕ) :
    ∃ cl, trialRun pts K f sortFn (pySliceTo K clusterLabelsAll)
        (Int.fdiv (pts.length : ℤ) K) (Int.fmod (pts.length : ℤ) K) off = .ok (some cl) ∧
      cl.length = pts.length ∧
      (∀ c ∈ cl, c ∈ pySliceTo K clusterLabelsAll) ∧
      (∀ i, i < K.toNat →
        cl.count (clusterLabelsAll.getD i '?') =
          if i < pts.length % K.toNat then pts.length / K.toNat + 1
          else pts.length / K.toNat) := by
  obtain ⟨k, rfl⟩ : ∃ k : ℕ, K = (k : ℤ) := ⟨K.toNat, by omega⟩
  have htn : ((k : ℤ)).toNat = k := by omega
  have hk1 : 1 ≤ k := by omega
  have hk6 : k ≤ 6 := by omega
  have hNpos : 0 < pts.length := List.length_pos.mpr hN
  have hppc : Int.fdiv (pts.length : ℤ) (k : ℤ) = ((pts.length / k : ℕ) : ℤ) :=
    (Int.ofNat_fdiv _ _).symm
  have hextra : Int.fmod (pts.length : ℤ) (k : ℤ) = ((pts.length % k : ℕ) : ℤ) :=
    (Int.ofNat_fmod _ _).symm
  have hlabels : pySliceTo (k : ℤ) clusterLabelsAll = clusterLabelsAll.take k := by
    rw [pySliceTo, if_pos (by omega : (0 : ℤ) ≤ (k : ℤ)), htn]
  have hlablen : (clusterLabelsAll.take k).length = k := by
    rw [List.length_take]
    have h6len : clusterLabelsAll.length = 6 := rfl
    omega
  have hlabnd : (clusterLabelsAll.take k).Nodup :=
    (by decide : clusterLabelsAll.Nodup).sublist (List.take_sublist k clusterLabelsAll)
  have hrange : pyRange (k : ℤ) = List.range k := by
    rw [pyRange, htn]
  rw [htn, hlabels, hppc, hextra]
  have hbnd : ∀ i ∈ List.range k, i < (clusterLabelsAll.take k).length := by
    intro i hi
    rw [hlablen]
    exact List.mem_range.mp hi
  have hbuild := buildAssignments_eq_ok (clusterLabelsAll.take k)
    ((pts.length / k : ℕ) : ℤ) ((pts.length % k : ℕ) : ℤ) (List.range k) hbnd
  have hsz : ∀ i : ℕ,
      (if (i : ℤ) < ((pts.length % k : ℕ) : ℤ)
        then (((pts.length / k : ℕ) : ℤ) + 1).toNat
        else ((pts.length / k : ℕ) : ℤ).toNat)
      = (if i < pts.length % k then pts.length / k + 1 else pts.length / k) := by
    intro i
    generalize pts.length / k = q
    generalize pts.length % k = m
    by_cases hi : i < m
    · rw [if_pos (by omega : (i : ℤ) < ((m : ℕ) : ℤ)), if_pos hi]
      omega
    · rw [if_neg (by omega : ¬(i : ℤ) < ((m : ℕ) : ℤ)), if_neg hi]
      omega
  set A := builtList (clusterLabelsAll.take k) ((pts.length / k : ℕ) : ℤ)
    ((pts.length % k : ℕ) : ℤ) (List.range k) with hAdef
  have hAlen : A.length = pts.length := by
    rw [hAdef, builtList_length]
    rw [List.map_congr_left (fun i _ => hsz i), sum_range_if]
    have hdm := Nat.div_add_mod pts.length k
    have hml := Nat.mod_lt pts.length (show 0 < k by omega)
    generalize pts.length / k = q at hdm ⊢
    generalize pts.length % k = m at hdm hml ⊢
    omega
  have htake : A.take pts.length = A := by
    rw [← hAlen, List.take_length]
  have hcountA : ∀ i, i < k →
      A.count ((clusterLabelsAll.take k).getD i '?') =
        (if i < pts.length % k then pts.length / k + 1 else pts.length / k) := by
    intro i hik
    rw [hAdef]
    rw [builtList_count _ _ _ hlabnd (List.range k) (List.nodup_range k) hbnd i
      (by rw [hlablen]; exact hik)]
    rw [if_pos (List.mem_range.mpr hik), hsz i]
  have hmemA : ∀ c ∈ A, c ∈ clusterLabelsAll.take k := by
    intro c hc
    obtain ⟨j, hj, rfl⟩ := builtList_mem _ _ _ _ c hc
    exact getD_mem (by rw [hlablen]; exact List.mem_range.mp hj) '?'
  -- the clusters column in original row order
  set CL := mapBack (sortFn (anglesAt pts f off)) A pts.length with hCLdef
  have hCLperm : CL.Perm A := by
    have h4 := hperm (anglesAt pts f off)
    rw [anglesAt_length] at h4
    have h4b : (sortFn (anglesAt pts f off)).Perm (List.range A.length) := by
      rw [hAlen]
      exact h4
    have h4c := mapBack_perm h4b
    rw [hAlen] at h4c
    exact h4c
  have hCLlen : CL.length = pts.length := mapBack_length _ _ _
  have hCLne : CL ≠ [] := by
    have : 0 < CL.length := by omega
    exact List.length_pos.mp this
  have hball : balanceCheck (sizesOf CL) ((pts.length / k : ℕ) : ℤ) = true := by
    apply balanceCheck_true
    · intro hc
      exact (uniqueFirst_ne_nil hCLne) (List.map_eq_nil_iff.mp hc)
    · intro s hs
      obtain ⟨c, hcu, rfl⟩ := List.mem_map.mp hs
      have hcCL : c ∈ CL := mem_of_mem_uniqueFirst hcu
      have hcA : c ∈ A := hCLperm.mem_iff.mp hcCL
      obtain ⟨j, hj, rfl⟩ := builtList_mem _ _ _ _ c hcA
      have hjk : j < k := List.mem_range.mp hj
      have hcount : CL.count ((clusterLabelsAll.take k).getD j '?')
          = (if j < pts.length % k then pts.length / k + 1 else pts.length / k) := by
        rw [hCLperm.count_eq]
        exact hcountA j hjk
      rw [hcount]
      generalize pts.length / k = q
      generalize pts.length % k = m
      by_cases hjm : j < m
      · rw [if_pos hjm]
        constructor <;> omega
      · rw [if_neg hjm]
        constructor <;> omega
  refine ⟨CL, ?_, hCLlen, ?_, ?_⟩
  · simp only [trialRun, hrange, hbuild, htake]
    rw [if_neg (show ¬A.length ≠ pts.length from fun hc => hc hAlen)]
    rw [← hCLdef, hball]
    rfl
  · intro c hc
    exact hmemA c (hCLperm.mem_iff.mp hc)
  · intro i hik
    have hgd : clusterLabelsAll.getD i '?' = (clusterLabelsAll.take k).getD i '?' :=
      (getD_take '?' clusterLabelsAll k i hik).symm
    rw [hgd, hCLperm.count_eq]
    exact hcountA i hik

/-! Glue between the search loop and the whole partitioner. -/

lemma find_eq_search (pts : List Pt) (K : ℤ) (f : ℚ → ℚ → ℚ) (sortFn : List ℚ → List ℕ)
    (hK : K ≠ 0) :
    find_optimal_clustering pts K f sortFn =
      searchOffsets (trialRun pts K f sortFn (pySliceTo K clusterLabelsAll)
        (Int.fdiv (pts.length : ℤ) K) (Int.fmod (pts.length : ℤ) K)) (List.range 360) := by
  simp only [find_optimal_clustering, if_neg hK]

lemma find_ok_of_trial0 (pts : List Pt) (K : ℤ) (f : ℚ → ℚ → ℚ)
    (sortFn : List ℚ → List ℕ) (cl : List Char) (hK : K ≠ 0)
    (h : trialRun pts K f sortFn (pySliceTo K clusterLabelsAll)
      (Int.fdiv (pts.length : ℤ) K) (Int.fmod (pts.length : ℤ) K) 0 = .ok (some cl)) :
    find_optimal_clustering pts K f sortFn = .ok (some (cl, 0)) := by
  rw [find_eq_search pts K f sortFn hK]
  exact searchOffsets_range_succ_ok 359 h

lemma buildAssignments_error (labels : List Char) (ppc extra : ℤ) :
    ∀ l : List ℕ, (∃ i ∈ l, ¬ i < labels.length) →
      buildAssignments labels ppc extra l = .error .indexError := by
  intro l
  induction l with
  | nil =>
    intro h
    obtain ⟨i, hi, _⟩ := h
    cases hi
  | cons i rest ih =>
    intro h
    obtain ⟨j, hj, hjbad⟩ := h
    by_cases hi : i < labels.length
    · have hrest : ∃ x ∈ rest, ¬ x < labels.length := by
        rcases List.mem_cons.mp hj with h1 | h1
        · exact absurd (h1 ▸ hi) hjbad
        · exact ⟨j, h1, hjbad⟩
      rw [buildAssignments, dif_pos hi, ih hrest]
    · rw [buildAssignments, dif_neg hi]

/-! Claim theorems about the partitioner. -/

/-- C1 (amended): with the hardcoded label alphabet the partitioner can
only serve `K ≤ 6`; in that range, for every `1 ≤ K ≤ min(N, 6)` and any
angle function and any argsort routine returning a permutation, it
returns a successful assignment at offset 0 whose group sizes are all
`⌊N/K⌋` or `⌊N/K⌋ + 1`, sum to `N`, and at most `N mod K` groups have
the larger size. -/
theorem partition_balanced_sizes (pts : List Pt) (K : ℤ) (f : ℚ → ℚ → ℚ)
    (sortFn : List ℚ → List ℕ)
    (hperm : ∀ as : List ℚ, (sortFn as).Perm (List.range as.length))
    (h1 : 1 ≤ K) (h6 : K ≤ 6) (hKN : K.toNat ≤ pts.length) :
    ∃ cl, find_optimal_clustering pts K f sortFn = .ok (some (cl, 0)) ∧
      cl.length = pts.length ∧
      (∀ i, i < K.toNat →
        cl.count (clusterLabelsAll.getD i '?') = pts.length / K.toNat ∨
        cl.count (clusterLabelsAll.getD i '?') = pts.length / K.toNat + 1) ∧
      ((List.range K.toNat).map
        (fun i => cl.count (clusterLabelsAll.getD i '?'))).sum = pts.length ∧
      (List.range K.toNat).countP
        (fun i => decide (cl.count (clusterLabelsAll.getD i '?')
          = pts.length / K.toNat + 1)) ≤ pts.length % K.toNat := by
  have hN : pts ≠ [] := by
    intro hc
    rw [hc] at hKN
    simp at hKN
    omega
  obtain ⟨cl, htrial, hlen, _, hcount⟩ := trialRun_ok pts K f sortFn hperm h1 h6 hN 0
  refine ⟨cl, find_ok_of_trial0 pts K f sortFn cl (by omega) htrial, hlen, ?_, ?_, ?_⟩
  · intro i hik
    rw [hcount i hik]
    by_cases him : i < pts.length % K.toNat
    · right
      rw [if_pos him]
    · left
      rw [if_neg him]
  · rw [List.map_congr_left (fun i hi => hcount i (List.mem_range.mp hi)), sum_range_if]
    have hdm := Nat.div_add_mod pts.length K.toNat
    have hml := Nat.mod_lt pts.length (show 0 < K.toNat by omega)
    generalize pts.length / K.toNat = q at hdm ⊢
    generalize pts.length % K.toNat = m at hdm hml ⊢
    omega
  · have hcp : (List.range K.toNat).countP
        (fun i => decide (cl.count (clusterLabelsAll.getD i '?')
          = pts.length / K.toNat + 1))
        = (List.range K.toNat).countP (fun i => decide (i < pts.length % K.toNat)) := by
      apply List.countP_congr
      intro i hi
      have hci := hcount i (List.mem_range.mp hi)
      simp only [decide_eq_true_eq]
      by_cases him : i < pts.length % K.toNat
      · rw [if_pos him] at hci
        exact ⟨fun _ => him, fun _ => hci⟩
      · rw [if_neg him] at hci
        constructor
        · intro hcc
          rw [hci] at hcc
          omega
        · intro hcc
          exact absurd hcc him
    rw [hcp, countP_range_lt]
    omega

/-- C2 (amended): for `N < K ≤ 6` the partitioner does NOT reject: the
balance test only inspects nonempty groups, so it accepts offset 0 with
the first `N` labels holding one participant each and the remaining
`K - N` labels empty. -/
theorem partition_empty_groups_success (pts : List Pt) (K : ℤ) (f : ℚ → ℚ → ℚ)
    (sortFn : List ℚ → List ℕ)
    (hperm : ∀ as : List ℚ, (sortFn as).Perm (List.range as.length))
    (hN : pts ≠ []) (hNK : pts.length < K.toNat) (h6 : K ≤ 6) :
    ∃ cl, find_optimal_clustering pts K f sortFn = .ok (some (cl, 0)) ∧
      (∀ i, i < pts.length → cl.count (clusterLabelsAll.getD i '?') = 1) ∧
      (∀ i, pts.length ≤ i → i < K.toNat → cl.count (clusterLabelsAll.getD i '?') = 0) := by
  have hNpos : 0 < pts.length := List.length_pos.mpr hN
  have h1 : 1 ≤ K := by omega
  obtain ⟨cl, htrial, _, _, hcount⟩ := trialRun_ok pts K f sortFn hperm h1 h6 hN 0
  have hq : pts.length / K.toNat = 0 := Nat.div_eq_of_lt hNK
  have hm : pts.length % K.toNat = pts.length := Nat.mod_eq_of_lt hNK
  refine ⟨cl, find_ok_of_trial0 pts K f sortFn cl (by omega) htrial, ?_, ?_⟩
  · intro i hi
    have hci := hcount i (by omega)
    rw [hm, hq, if_pos hi] at hci
    omega
  · intro i hge hik
    have hci := hcount i hik
    rw [hm, hq, if_neg (by omega)] at hci
    exact hci

/-- C4 (confirmed): the partitioner is a pure function — two runs on
identical input return the identical assignment and offset — and the
returned offset is the least offset in `[0, 360)` whose trial passes the
balance test: the trial at the returned offset succeeds with the
returned assignment and every smaller offset's trial returned `none`. -/
theorem partition_lowest_offset (pts : List Pt) (K : ℤ) (f : ℚ → ℚ → ℚ)
    (sortFn : List ℚ → List ℕ) (cl cl2 : List Char) (off off2 : ℕ)
    (h : find_optimal_clustering pts K f sortFn = .ok (some (cl, off)))
    (h2 : find_optimal_clustering pts K f sortFn = .ok (some (cl2, off2))) :
    cl2 = cl ∧ off2 = off ∧ off < 360 ∧
      trialRun pts K f sortFn (pySliceTo K clusterLabelsAll)
        (Int.fdiv (pts.length : ℤ) K) (Int.fmod (pts.length : ℤ) K) off = .ok (some cl) ∧
      (List.range off).all
        (fun o => decide (trialRun pts K f sortFn (pySliceTo K clusterLabelsAll)
          (Int.fdiv (pts.length : ℤ) K) (Int.fmod (pts.length : ℤ) K) o
            = .ok none)) = true := by
  have hdet := h.symm.trans h2
  simp only [Except.ok.injEq, Option.some.injEq, Prod.mk.injEq] at hdet
  have hK0 : K ≠ 0 := by
    intro hc
    rw [hc] at h
    simp [find_optimal_clustering] at h
  rw [find_eq_search pts K f sortFn hK0, List.range_eq_range' 360] at h
  obtain ⟨_, hlt, htr, hnone⟩ := searchOffsets_range'_some 360 0 h
  refine ⟨hdet.1.symm, hdet.2.symm, by omega, htr, ?_⟩
  apply List.all_eq_true.mpr
  intro o ho
  exact decide_eq_true (hnone o (by omega) (List.mem_range.mp ho))

/-- C6 (amended): restricted to the representable range `K ≤ 6`, the
offset search indeed succeeds at its very first candidate for every
`1 ≤ K ≤ N`: the trial at offset 0 is accepted and the partitioner
returns offset 0. -/
theorem partition_offset_zero (pts : List Pt) (K : ℤ) (f : ℚ → ℚ → ℚ)
    (sortFn : List ℚ → List ℕ)
    (hperm : ∀ as : List ℚ, (sortFn as).Perm (List.range as.length))
    (h1 : 1 ≤ K) (h6 : K ≤ 6) (hKN : K.toNat ≤ pts.length) :
    ∃ cl, trialRun pts K f sortFn (pySliceTo K clusterLabelsAll)
        (Int.fdiv (pts.length : ℤ) K) (Int.fmod (pts.length : ℤ) K) 0 = .ok (some cl) ∧
      find_optimal_clustering pts K f sortFn = .ok (some (cl, 0)) := by
  have hN : pts ≠ [] := by
    intro hc
    rw [hc] at hKN
    simp at hKN
    omega
  obtain ⟨cl, htrial, _, _, _⟩ := trialRun_ok pts K f sortFn hperm h1 h6 hN 0
  exact ⟨cl, htrial, find_ok_of_trial0 pts K f sortFn cl (by omega) htrial⟩

/-- C10 (confirmed): the label alphabet is hardcoded to six symbols, so
for every requested group count `K ≥ 7` on a nonempty input the run-label
loop indexes `cluster_labels[6]` out of range during the very first
trial, and the partitioner aborts with `IndexError` instead of returning
a result. -/
theorem partition_seven_groups_index_error (pts : List Pt) (K : ℤ) (f : ℚ → ℚ → ℚ)
    (sortFn : List ℚ → List ℕ) (_hN : pts ≠ []) (h7 : 7 ≤ K) :
    find_optimal_clustering pts K f sortFn = .error .indexError := by
  have hK0 : K ≠ 0 := by omega
  rw [find_eq_search pts K f sortFn hK0]
  apply searchOffsets_range_succ_error 359
  have hlab : (pySliceTo K clusterLabelsAll).length = 6 := by
    rw [pySliceTo, if_pos (by omega : (0 : ℤ) ≤ K), List.length_take]
    have h6len : clusterLabelsAll.length = 6 := rfl
    omega
  have hbad : ∃ i ∈ pyRange K, ¬ i < (pySliceTo K clusterLabelsAll).length := by
    refine ⟨6, ?_, by rw [hlab]; omega⟩
    rw [pyRange]
    exact List.mem_range.mpr (by omega)
  simp only [trialRun, buildAssignments_error _ _ _ _ hbad]

/-- C3 (amended): there is no input validation before the search.
`K = 0` crashes with `ZeroDivisionError` at the `N // K` computation; an
empty input with a representable `1 ≤ K ≤ 6` is not rejected up front —
the full 360-offset scan runs, every balance test fails on the empty
size table, and the failure value `(None, None)` is returned at the
end. -/
theorem partition_error_paths (pts : List Pt) (K : ℤ) (f : ℚ → ℚ → ℚ)
    (sortFn : List ℚ → List ℕ) :
    (K = 0 → find_optimal_clustering pts K f sortFn = .error .zeroDivisionError) ∧
    (pts = [] → 1 ≤ K → K ≤ 6 → find_optimal_clustering pts K f sortFn = .ok none) := by
  constructor
  · intro hK
    rw [find_optimal_clustering, if_pos hK]
  · intro hpts h1 h6
    subst hpts
    have hK0 : K ≠ 0 := by omega
    rw [find_eq_search [] K f sortFn hK0]
    apply searchOffsets_all_none
    intro o _
    obtain ⟨k, rfl⟩ : ∃ k : ℕ, K = (k : ℤ) := ⟨K.toNat, by omega⟩
    have htn : ((k : ℤ)).toNat = k := by omega
    have hk6 : k ≤ 6 := by omega
    have hrange : pyRange (k : ℤ) = List.range k := by
      rw [pyRange, htn]
    have hbnd : ∀ i ∈ List.range k, i < (pySliceTo (k : ℤ) clusterLabelsAll).length := by
      intro i hi
      rw [pySliceTo, if_pos (by omega : (0 : ℤ) ≤ (k : ℤ)), List.length_take, htn]
      have h6len : clusterLabelsAll.length = 6 := rfl
      have := List.mem_range.mp hi
      omega
    simp only [List.length_nil, Nat.cast_zero, Int.zero_fdiv, Int.zero_fmod]
    have hbuild := buildAssignments_eq_ok (pySliceTo (k : ℤ) clusterLabelsAll)
      0 0 (List.range k) hbnd
    have hA0 : builtList (pySliceTo (k : ℤ) clusterLabelsAll) 0 0 (List.range k) = [] := by
      apply List.length_eq_zero.mp
      rw [builtList_length]
      apply List.sum_eq_zero
      intro x hx
      obtain ⟨i, _, rfl⟩ := List.mem_map.mp hx
      rw [if_neg (by omega : ¬(i : ℤ) < 0)]
      rfl
    rw [hA0] at hbuild
    simp only [trialRun, hrange, hbuild, List.length_nil, List.take_nil]
    rw [if_neg (show ¬(0 : ℕ) ≠ 0 from fun hc => hc rfl)]
    have hmb : mapBack (sortFn (anglesAt [] f o)) [] 0 = [] := by
      rw [mapBack, List.range_zero, List.map_nil]
    rw [hmb]
    have hsz0 : sizesOf [] = [] := rfl
    rw [hsz0]
    rfl

/-! Claim theorems about the Boundary Calculator. -/

lemma getD_map_range {α : Type} (d : α) (g : ℕ → α) (L i : ℕ) (h : i < L) :
    ((List.range L).map g).getD i d = g i := by
  have hlen : ((List.range L).map g).length = L := by simp
  rw [List.getD_eq_getElem _ _ (by rw [hlen]; exact h), List.getElem_map]
  congr 1
  exact List.getElem_range _ _

/-- C7 (confirmed): the boundary pass orders the (nonempty) groups by
their minimum member angle, and the midpoint computed for the `i`-th
cyclically adjacent pair is `(max(current) + min(next)) / 2` reduced
mod 360, where `min(next)` is first raised by 360 whenever it is below
`max(current)` (the 0/360 wraparound seam). -/
theorem boundary_midpoint_formula (rows : List (Char × ℚ)) :
    (orderedLabels rows).Pairwise
      (fun a b => minAngle rows a ≤ minAngle rows b) ∧
    ∀ i, i < (orderedLabels rows).length →
      (midAngles rows).getD i 0 =
        pymod ((maxAngle rows ((orderedLabels rows).getD i '?') +
          (if minAngle rows
                ((orderedLabels rows).getD ((i + 1) % (orderedLabels rows).length) '?')
              < maxAngle rows ((orderedLabels rows).getD i '?')
            then minAngle rows
                ((orderedLabels rows).getD ((i + 1) % (orderedLabels rows).length) '?') + 360
            else minAngle rows
                ((orderedLabels rows).getD ((i + 1) % (orderedLabels rows).length) '?')))
          / 2) 360 := by
  constructor
  · haveI htot : IsTotal Char (fun a b => minAngle rows a ≤ minAngle rows b) :=
      ⟨fun a b => le_total _ _⟩
    haveI htrans : IsTrans Char (fun a b => minAngle rows a ≤ minAngle rows b) :=
      ⟨fun a b c hab hbc => le_trans hab hbc⟩
    exact List.sorted_insertionSort _ _
  · intro i hi
    rw [midAngles, getD_map_range 0 _ _ i hi]
    rfl

/-- C8 (amended): the boundary pass emits one entry per nonempty group
— `K` entries exactly when all `K` groups are nonempty — and each
midpoint lies in `[0, 360)` before the rendering transform; the emitted
values, however, are `-midpoint + 30` sorted ascending, which is how the
drawn sequence leaves `[0, 360)`. -/
theorem boundary_count_eq_and_midpoints_in_range (rows : List (Char × ℚ)) (Kc : ℕ)
    (h : (clustersOf rows).length = Kc) :
    (boundary_angles rows).length = Kc ∧
    ∀ b ∈ midAngles rows, 0 ≤ b ∧ b < 360 := by
  constructor
  · rw [boundary_angles,
      (List.perm_insertionSort (fun a b : ℚ => a ≤ b) _).length_eq,
      List.length_map, midAngles, List.length_map, List.length_range, orderedLabels,
      (List.perm_insertionSort (fun a b => minAngle rows a ≤ minAngle rows b) _).length_eq,
      h]
  · intro b hb
    rw [midAngles] at hb
    obtain ⟨i, _, rfl⟩ := List.mem_map.mp hb
    simp only [midAngleAt]
    exact pymod_nonneg_lt _

/-- C9 (amended): invoked on an assignment with an empty group, the
boundary pass does not fail: the group keys come from the values present
in the frame, so an empty group is silently skipped and the output is
one (total, error-free) boundary per nonempty group. -/
theorem boundary_skips_empty_groups (rows : List (Char × ℚ)) :
    (boundary_angles rows).length = (clustersOf rows).length := by
  rw [boundary_angles,
    (List.perm_insertionSort (fun a b : ℚ => a ≤ b) _).length_eq,
    List.length_map, midAngles, List.length_map, List.length_range, orderedLabels,
    (List.perm_insertionSort (fun a b => minAngle rows a ≤ minAngle rows b) _).length_eq]

/-! Concrete inputs for the counterexamples and witnesses. -/

/-- A two-cluster frame (clusters away from the 0/360 seam). -/
def rows8 : List (Char × ℚ) := [('A', 0), ('A', 10), ('B', 100), ('B', 200)]

/-- A frame whose intended third group `C` is empty. -/
def rows9 : List (Char × ℚ) := [('A', 10), ('B', 200)]

/-- A two-cluster, two-row frame for the midpoint-formula witness. -/
def rows7 : List (Char × ℚ) := [('A', 0), ('B', 90)]

lemma pymod_eq_self {a : ℚ} (h0 : 0 ≤ a) (h1 : a < 360) : pymod a 360 = a := by
  have hf : ⌊a / 360⌋ = 0 := by
    rw [Int.floor_eq_zero_iff, Set.mem_Ico]
    constructor
    · exact div_nonneg h0 (by norm_num)
    · rw [div_lt_one (by norm_num : (0 : ℚ) < 360)]
      exact h1
  rw [pymod, hf]
  norm_num

/-! Counterexamples and witnesses. -/

/-- C1 counterexample: the claim quantifies over every `1 ≤ K ≤ N`, but
at `N = K = 7` the partitioner does not return any assignment — it
aborts with `IndexError` on the hardcoded six-letter label alphabet. -/
theorem partition_balanced_sizes_fails_beyond_six :
    find_optimal_clustering (mkPts 7) 7 constAngle idSort = .error .indexError := by
  decide

/-- C1 witness: the amended balance theorem evaluated at `N = 3`,
`K = 2`. -/
theorem partition_balanced_sizes_witness :
    ∃ cl, find_optimal_clustering (mkPts 3) 2 constAngle idSort = .ok (some (cl, 0)) ∧
      cl.length = 3 ∧
      (∀ i, i < 2 →
        cl.count (clusterLabelsAll.getD i '?') = 1 ∨
        cl.count (clusterLabelsAll.getD i '?') = 2) ∧
      ((List.range 2).map (fun i => cl.count (clusterLabelsAll.getD i '?'))).sum = 3 ∧
      (List.range 2).countP
        (fun i => decide (cl.count (clusterLabelsAll.getD i '?') = 2)) ≤ 1 :=
  partition_balanced_sizes (mkPts 3) 2 constAngle idSort
    (fun _ => List.Perm.refl _) (by decide) (by decide) (by decide)

/-- C2 counterexample: at `N = 3`, `K = 6` the partitioner does not
report a failure — it succeeds at offset 0 with three singleton groups,
leaving requested group `F` (and `D`, `E`) empty. -/
theorem partition_accepts_more_groups_than_points :
    find_optimal_clustering (mkPts 3) 6 constAngle idSort = .ok (some (['A', 'B', 'C'], 0)) ∧
      'F' ∈ pySliceTo 6 clusterLabelsAll ∧ ['A', 'B', 'C'].count 'F' = 0 := by
  decide

/-- C2 witness: the amended empty-groups theorem evaluated at `N = 2`,
`K = 4`. -/
theorem partition_empty_groups_success_witness :
    ∃ cl, find_optimal_clustering (mkPts 2) 4 constAngle idSort = .ok (some (cl, 0)) ∧
      (∀ i, i < 2 → cl.count (clusterLabelsAll.getD i '?') = 1) ∧
      (∀ i, 2 ≤ i → i < 4 → cl.count (clusterLabelsAll.getD i '?') = 0) :=
  partition_empty_groups_success (mkPts 2) 4 constAngle idSort
    (fun _ => List.Perm.refl _) (by decide) (by decide) (by decide)

/-- C3 counterexample: `K = 0` is not rejected with a value-level
failure — the embedded `N // K` raises `ZeroDivisionError`. -/
theorem partition_zero_groups_crashes :
    find_optimal_clustering (mkPts 2) 0 constAngle idSort = .error .zeroDivisionError := by
  decide

/-- C3 witness: both amended error paths evaluated on concrete inputs:
`K = 0` crashes, and an empty input with `K = 3` yields the
`(None, None)` failure value after the full scan. -/
theorem partition_error_paths_witness :
    find_optimal_clustering (mkPts 1) 0 constAngle idSort = .error .zeroDivisionError ∧
      find_optimal_clustering [] 3 constAngle idSort = .ok none :=
  ⟨(partition_error_paths (mkPts 1) 0 constAngle idSort).1 rfl,
   (partition_error_paths [] 3 constAngle idSort).2 rfl (by decide) (by decide)⟩

/-- C4 witness: the determinism/lowest-offset theorem evaluated at
`N = 1`, `K = 1`, where the returned offset is 0. -/
theorem partition_lowest_offset_witness :
    (['A'] : List Char) = ['A'] ∧ (0 : ℕ) = 0 ∧ 0 < 360 ∧
      trialRun (mkPts 1) 1 constAngle idSort (pySliceTo 1 clusterLabelsAll)
        (Int.fdiv ((mkPts 1).length : ℤ) 1) (Int.fmod ((mkPts 1).length : ℤ) 1) 0
        = .ok (some ['A']) ∧
      (List.range 0).all
        (fun o => decide (trialRun (mkPts 1) 1 constAngle idSort (pySliceTo 1 clusterLabelsAll)
          (Int.fdiv ((mkPts 1).length : ℤ) 1) (Int.fmod ((mkPts 1).length : ℤ) 1) o
            = .ok none)) = true :=
  partition_lowest_offset (mkPts 1) 1 constAngle idSort ['A'] ['A'] 0 0
    (by decide) (by decide)

/-- C6 counterexample: the claim quantifies over every `1 ≤ K ≤ N`, but
at `N = 8`, `K = 7` the partitioner does not return offset 0 — it aborts
with `IndexError` while building the run labels. -/
theorem partition_offset_zero_claim_fails_at_seven :
    find_optimal_clustering (mkPts 8) 7 constAngle idSort = .error .indexError := by
  decide

/-- C6 witness: the amended first-offset theorem evaluated at `N = 4`,
`K = 3`. -/
theorem partition_offset_zero_witness :
    ∃ cl, trialRun (mkPts 4) 3 constAngle idSort (pySliceTo 3 clusterLabelsAll)
        (Int.fdiv ((mkPts 4).length : ℤ) 3) (Int.fmod ((mkPts 4).length : ℤ) 3) 0
        = .ok (some cl) ∧
      find_optimal_clustering (mkPts 4) 3 constAngle idSort = .ok (some (cl, 0)) :=
  partition_offset_zero (mkPts 4) 3 constAngle idSort
    (fun _ => List.Perm.refl _) (by decide) (by decide) (by decide)

/-- C7 witness: the midpoint formula evaluated at the first adjacent
pair of a concrete two-cluster frame. -/
theorem boundary_midpoint_formula_witness :
    (orderedLabels rows7).Pairwise
      (fun a b => minAngle rows7 a ≤ minAngle rows7 b) ∧
    (midAngles rows7).getD 0 0 =
      pymod ((maxAngle rows7 ((orderedLabels rows7).getD 0 '?') +
        (if minAngle rows7
              ((orderedLabels rows7).getD ((0 + 1) % (orderedLabels rows7).length) '?')
            < maxAngle rows7 ((orderedLabels rows7).getD 0 '?')
          then minAngle rows7
              ((orderedLabels rows7).getD ((0 + 1) % (orderedLabels rows7).length) '?') + 360
          else minAngle rows7
              ((orderedLabels rows7).getD ((0 + 1) % (orderedLabels rows7).length) '?')))
        / 2) 360 :=
  ⟨(boundary_midpoint_formula rows7).1,
   (boundary_midpoint_formula rows7).2 0 (by decide)⟩

/-- C8 counterexample: the emitted boundary sequence of a concrete
frame is `[-250, -25]` — its entries are negative, not in `[0, 360)`,
because the script emits `-midpoint + 30`. -/
theorem boundary_output_leaves_range :
    boundary_angles rows8 = [-250, -25] ∧ ((-25 : ℚ) < 0) := by
  constructor
  · have hord : orderedLabels rows8 = ['A', 'B'] := by decide
    have hlen2 : (orderedLabels rows8).length = 2 := by
      rw [hord]
      rfl
    have hmid : midAngles rows8 =
        [midAngleAt rows8 (orderedLabels rows8) 0,
         midAngleAt rows8 (orderedLabels rows8) 1] := by
      rw [midAngles, hlen2]
      rfl
    have h0 : midAngleAt rows8 (orderedLabels rows8) 0 = 55 := by
      rw [hord]
      have hmax : maxAngle rows8 'A' = 10 := by decide
      have hmin : minAngle rows8 'B' = 100 := by decide
      have hg0 : (['A', 'B'] : List Char).getD 0 '?' = 'A' := rfl
      have hg1 : (['A', 'B'] : List Char).getD ((0 + 1) % (['A', 'B'] : List Char).length) '?'
          = 'B' := rfl
      simp only [midAngleAt, hg0, hg1, hmax, hmin]
      rw [if_neg (by norm_num : ¬(100 : ℚ) < 10)]
      rw [show ((10 : ℚ) + 100) / 2 = 55 by norm_num]
      exact pymod_eq_self (by norm_num) (by norm_num)
    have h1 : midAngleAt rows8 (orderedLabels rows8) 1 = 280 := by
      rw [hord]
      have hmax : maxAngle rows8 'B' = 200 := by decide
      have hmin : minAngle rows8 'A' = 0 := by decide
      have hg0 : (['A', 'B'] : List Char).getD 1 '?' = 'B' := rfl
      have hg1 : (['A', 'B'] : List Char).getD ((1 + 1) % (['A', 'B'] : List Char).length) '?'
          = 'A' := rfl
      simp only [midAngleAt, hg0, hg1, hmax, hmin]
      rw [if_pos (by norm_num : (0 : ℚ) < 200)]
      rw [show ((200 : ℚ) + (0 + 360)) / 2 = 280 by norm_num]
      exact pymod_eq_self (by norm_num) (by norm_num)
    rw [boundary_angles, hmid, h0, h1]
    rw [show ([55, 280] : List ℚ).map (fun b => -b + 30) = [-25, -250] by norm_num]
    rw [List.insertionSort, List.insertionSort, List.insertionSort]
    rw [List.orderedInsert, List.orderedInsert]
    rw [if_neg (by norm_num : ¬(-25 : ℚ) ≤ -250)]
    rfl
  · norm_num

/-- C8 witness: the amended count/range theorem evaluated on the same
concrete two-cluster frame. -/
theorem boundary_count_witness :
    (boundary_angles rows8).length = 2 ∧
      ∀ b ∈ midAngles rows8, 0 ≤ b ∧ b < 360 :=
  boundary_count_eq_and_midpoints_in_range rows8 2 (by decide)

/-- C9 counterexample: invoked on a frame whose intended group `C` is
empty, the boundary pass raises no error and silently emits a shorter,
two-entry sequence — one boundary per nonempty group only. -/
theorem boundary_silent_on_empty_group :
    boundary_angles rows9 = [-255, -75] ∧ 'C' ∉ rows9.map Prod.fst ∧
      (boundary_angles rows9).length = 2 := by
  have hval : boundary_angles rows9 = [-255, -75] := by
    have hord : orderedLabels rows9 = ['A', 'B'] := by decide
    have hlen2 : (orderedLabels rows9).length = 2 := by
      rw [hord]
      rfl
    have hmid : midAngles rows9 =
        [midAngleAt rows9 (orderedLabels rows9) 0,
         midAngleAt rows9 (orderedLabels rows9) 1] := by
      rw [midAngles, hlen2]
      rfl
    have h0 : midAngleAt rows9 (orderedLabels rows9) 0 = 105 := by
      rw [hord]
      have hmax : maxAngle rows9 'A' = 10 := by decide
      have hmin : minAngle rows9 'B' = 200 := by decide
      have hg0 : (['A', 'B'] : List Char).getD 0 '?' = 'A' := rfl
      have hg1 : (['A', 'B'] : List Char).getD ((0 + 1) % (['A', 'B'] : List Char).length) '?'
          = 'B' := rfl
      simp only [midAngleAt, hg0, hg1, hmax, hmin]
      rw [if_neg (by norm_num : ¬(200 : ℚ) < 10)]
      rw [show ((10 : ℚ) + 200) / 2 = 105 by norm_num]
      exact pymod_eq_self (by norm_num) (by norm_num)
    have h1 : midAngleAt rows9 (orderedLabels rows9) 1 = 285 := by
      rw [hord]
      have hmax : maxAngle rows9 'B' = 200 := by decide
      have hmin : minAngle rows9 'A' = 10 := by decide
      have hg0 : (['A', 'B'] : List Char).getD 1 '?' = 'B' := rfl
      have hg1 : (['A', 'B'] : List Char).getD ((1 + 1) % (['A', 'B'] : List Char).length) '?'
          = 'A' := rfl
      simp only [midAngleAt, hg0, hg1, hmax, hmin]
      rw [if_pos (by norm_num : (10 : ℚ) < 200)]
      rw [show ((200 : ℚ) + (10 + 360)) / 2 = 285 by norm_num]
      exact pymod_eq_self (by norm_num) (by norm_num)
    rw [boundary_angles, hmid, h0, h1]
    rw [show ([105, 285] : List ℚ).map (fun b => -b + 30) = [-75, -255] by norm_num]
    rw [List.insertionSort, List.insertionSort, List.insertionSort]
    rw [List.orderedInsert, List.orderedInsert]
    rw [if_neg (by norm_num : ¬(-75 : ℚ) ≤ -255)]
    rfl
  refine ⟨hval, by decide, by rw [hval]; rfl⟩

/-- C10 witness: the index-error theorem evaluated at `N = 2`,
`K = 8`. -/
theorem partition_seven_groups_index_error_witness :
    find_optimal_clustering (mkPts 2) 8 constAngle idSort = .error .indexError :=
  partition_seven_groups_index_error (mkPts 2) 8 constAngle idSort
    (by decide) (by decide)

end RadialClustering
